import Mathlib

/-
Verification development for the repository open_source_lrm, whose single
source file is src/1_open_source_o1_dspy.py.  The definitions below are a
shallow embedding of that file: the Message and Memory classes, the tag
extraction helpers, a model of the exec based code runner, and the
step-by-step reasoning driver loop.  Machine integers of the source are
modelled as Nat and Int; fallible operations return Option or Except.
-/

namespace LRM

/-- Whitespace test used by the embeddings of the Python str.split and
str.strip methods (space, tab, newline, carriage return). -/
def isWS (c : Char) : Bool := c == ' ' || c == '\t' || c == '\n' || c == '\r'

/-- Accumulator based helper for pywords; acc holds the current word in
reversed order. -/
def pywordsAux : List Char → List Char → List (List Char)
  | [], acc => if acc.isEmpty then [] else [acc.reverse]
  | c :: rest, acc =>
    if isWS c then
      if acc.isEmpty then pywordsAux rest [] else acc.reverse :: pywordsAux rest []
    else pywordsAux rest (c :: acc)

/-- Embedding of the Python call content.split() with no arguments: split on
runs of whitespace, ignoring leading and trailing whitespace, never
producing empty words. -/
def pywords (l : List Char) : List (List Char) := pywordsAux l []

/-- Embedding of the Python expression sep.join(tokens) for sep a single
space: interleave one space between consecutive words. -/
def joinWS : List (List Char) → List Char
  | [] => []
  | [w] => w
  | w :: rest => w ++ ' ' :: joinWS rest

/-- Number of whitespace separated tokens of a string, the token counting
measure used throughout the source (len of content.split()). -/
def tokenCount (s : String) : Nat := (pywords s.toList).length

/-- Token list of a string content. -/
def contentTokens (s : String) : List (List Char) := pywords s.toList

/-- Embedding of the Python slice tokens[-k:]: for k = 0 the slice yields
the whole list (since -0 is 0), otherwise the last k elements. -/
def pyLastSlice (ts : List (List Char)) (k : Nat) : List (List Char) :=
  if k = 0 then ts else ts.drop (ts.length - k)

/-- Appends a marker to the last word of a word list (used to describe the
literal ellipsis suffix that truncation attaches to the joined text). -/
def markLast (d : List Char) : List (List Char) → List (List Char)
  | [] => []
  | [w] => [w ++ d]
  | w :: rest => w :: markLast d rest

/-- Character list of the literal ellipsis marker appended by truncate. -/
def ellipsisChars : List Char := ['.', '.', '.']

/-- Embedding of a conversation message: the source stores role and content
as plain strings (the to_dict projection is the identity on this data). -/
structure Message where
  role : String
  content : String
deriving DecidableEq, Repr

/-- Embedding of Message.truncate restricted to its content effect.  The
source splits the content, and only when strictly more tokens than
max_tokens are present rewrites the content according to the mode string
and appends a literal ellipsis.  The random mode delegates the choice of
kept tokens to random.sample, modelled by the extra sample argument. -/
def truncateContent (content : String) (maxTokens : Nat) (mode : String)
    (sample : List (List Char)) : String :=
  let ts := pywords content.toList
  if ts.length > maxTokens then
    let newContent :=
      if mode = "start" then String.mk (joinWS (ts.take maxTokens))
      else if mode = "end" then String.mk (joinWS (pyLastSlice ts maxTokens))
      else if mode = "mix" then
        -- The source slice is tokens[-max_tokens // 2:], and Python parses the
        -- index as (-max_tokens) // 2, whose floor division gives the negative
        -- of the rounded up half, so the slice keeps the last
        -- (maxTokens + 1) / 2 tokens (and the whole list when maxTokens is 0).
        String.mk (joinWS (ts.take (maxTokens / 2)
          ++ pyLastSlice ts ((maxTokens + 1) / 2)))
      else if mode = "random" then String.mk (joinWS sample)
      else content
    newContent ++ "..."
  else content

/-- Embedding of Message.truncate: the source mutates self.content and
returns self; here the updated message is returned. -/
def Message.truncate (m : Message) (maxTokens : Nat) (mode : String)
    (sample : List (List Char)) : Message :=
  { m with content := truncateContent m.content maxTokens mode sample }

/-- Sum of the token counts over a history, the quantity the retention pass
compares against the context length. -/
def sumTok (h : List Message) : Nat := (h.map fun m => tokenCount m.content).sum

/-- Sum of the token counts over the non system messages of a history. -/
def nonSysTok (h : List Message) : Nat :=
  ((h.filter fun m => m.role ≠ "system").map fun m => tokenCount m.content).sum

/-- Embedding of the Memory class data: the scaled context length and the
ordered history (oldest first). -/
structure Memory where
  contextLength : Nat
  history : List Message
deriving DecidableEq, Repr

/-- Embedding of the Memory constructor.  The source computes
int(context_length * 0.9); for natural inputs this equals the floor of
9 * context_length / 10, which is how the 10 percent buffer is modelled. -/
def Memory.init (contextLength : Nat) : Memory :=
  { contextLength := 9 * contextLength / 10, history := [] }

/-- Embedding of the scan loop inside Memory._update_context: the input
list is the reversed history (most recent first), rem is the running
remaining budget (an int in the source, it can go negative after a kept
system message), and acc plays the role of new_history, which receives
each kept message by insertion at position zero.  The loop breaks at the
first message that is neither a system message nor affordable. -/
def scanRev : List Message → Int → List Message → List Message
  | [], _, acc => acc
  | m :: rest, rem, acc =>
    if m.role = "system" ∨ 0 ≤ rem - (tokenCount m.content : Int) then
      scanRev rest (rem - (tokenCount m.content : Int)) (m :: acc)
    else acc

/-- Embedding of Memory._update_context: if the total token count is within
the context length nothing happens, otherwise the history is replaced by
the result of the newest-to-oldest retention scan. -/
def Memory.updateContext (m : Memory) : Memory :=
  if sumTok m.history ≤ m.contextLength then m
  else { m with history := scanRev m.history.reverse (m.contextLength : Int) [] }

/-- Embedding of Memory.add_message: append the message to the history and
run the retention pass.  The pretty printing side effect is pure console
output and is not modelled. -/
def Memory.add_message (m : Memory) (msg : Message) : Memory :=
  Memory.updateContext { m with history := m.history ++ [msg] }

/-- Embedding of Memory.clear. -/
def Memory.clear (m : Memory) : Memory := { m with history := [] }

/-- Count of kept messages for the retention pass, written from the spec
wording: walk the history from most recent to oldest, greedily keeping a
message when its role is system or the remaining budget after subtracting
its token count is still non negative, subtracting the token count of
every kept message from the running budget, and stopping at the first
rejection.  The input list is the reversed history. -/
def specKeepCount : Int → List Message → Nat
  | _, [] => 0
  | rem, m :: rest =>
    if m.role = "system" ∨ 0 ≤ rem - (tokenCount m.content : Int) then
      specKeepCount (rem - (tokenCount m.content : Int)) rest + 1
    else 0

/-- Retention outcome written from the spec wording: everything older than
the cut point is discarded and the kept messages stay in chronological
order, so the result is the suffix of the history whose length is the
number of kept messages. -/
def retentionSpec (ctx : Nat) (h : List Message) : List Message :=
  h.drop (h.length - specKeepCount (ctx : Int) h.reverse)

/-- Decides whether pat occurs as a contiguous sublist of l, mirroring the
Python substring test. -/
def containsSub (pat : List Char) : List Char → Bool
  | [] => pat.isPrefixOf []
  | c :: rest => pat.isPrefixOf (c :: rest) || containsSub pat rest

/-- Locates the first occurrence of pat in l, returning the part before the
occurrence and the part after it.  This is the kernel of the embedding of
the non greedy regular expression searches of the source. -/
def splitOnFirst (pat : List Char) : List Char → Option (List Char × List Char)
  | [] => if pat.isPrefixOf ([] : List Char) then some ([], ([] : List Char).drop pat.length) else none
  | c :: rest =>
    if pat.isPrefixOf (c :: rest) then some ([], (c :: rest).drop pat.length)
    else (splitOnFirst pat rest).map fun p => (c :: p.1, p.2)

/-- Checks that no proper nonempty border exists: no strict nonempty suffix
of pat is also a prefix of pat.  Both tag strings used by the source are
border free, which rules out tag occurrences straddling a boundary. -/
def borderFreeB (pat : List Char) : Bool :=
  (List.range pat.length).all fun k =>
    k == 0 || pat.drop (pat.length - k) != pat.take k

/-- Tag characters of the opening step tag. -/
def stepOpenTag : List Char := "<step>".toList

/-- Tag characters of the closing step tag. -/
def stepCloseTag : List Char := "</step>".toList

/-- Tag characters of the opening python tag. -/
def pyOpenTag : List Char := "<python>".toList

/-- Tag characters of the closing python tag. -/
def pyCloseTag : List Char := "</python>".toList

/-- Embedding of re.findall for the pattern <step>(.*?)</step> with the
DOTALL flag: repeatedly find the next opening tag, then the nearest
closing tag after it, capture the characters in between, and continue
after the closing tag.  Fuel bounds the recursion; every successful round
consumes at least the two tags, so fuel equal to the input length plus one
never runs out and the function computes exactly the findall result. -/
def extractAllF : Nat → List Char → List (List Char)
  | 0, _ => []
  | fuel + 1, l =>
    match splitOnFirst stepOpenTag l with
    | none => []
    | some p1 =>
      match splitOnFirst stepCloseTag p1.2 with
      | none => []
      | some p2 => p2.1 :: extractAllF fuel p2.2

/-- Embedding of LargeReasoningModel.extract_steps: search for the step
pattern; when a match exists return all captured step bodies (the source
does not strip them), otherwise return none (the Python None). -/
def extract_steps (s : String) : Option (List String) :=
  match extractAllF (s.toList.length + 1) s.toList with
  | [] => none
  | l => some (l.map fun w => String.mk w)

/-- Embedding of the Python call text.strip(): drop whitespace from both
ends. -/
def pyStrip (l : List Char) : List Char :=
  ((l.dropWhile fun c => isWS c).reverse.dropWhile fun c => isWS c).reverse

/-- Embedding of LargeReasoningModel.extract_python_code: search for the
python pattern and return the stripped body of the first match, none when
no match exists. -/
def extract_python_code (s : String) : Option String :=
  match splitOnFirst pyOpenTag s.toList with
  | none => none
  | some p1 =>
    match splitOnFirst pyCloseTag p1.2 with
    | none => none
    | some p2 => some (String.mk (pyStrip p2.1))

/-- Snippet statements of the executable model of exec: the claims about
the code runner only need import statements and print statements with a
string literal argument. -/
inductive PyStmt where
  | importMod (name : String)
  | printStr (s : String)
deriving DecidableEq, Repr

/-- Source text of one modelled statement, used because the formatted
result strings of execute_python_code embed the code text. -/
def renderStmt : PyStmt → String
  | .importMod n => "import " ++ n
  | .printStr s => "print(\"" ++ s ++ "\")"

/-- Source text of a modelled snippet, one statement per line. -/
def renderProg (prog : List PyStmt) : String :=
  String.intercalate "\n" (prog.map renderStmt)

/-- Availability of the import machinery inside the exec environment built
by the source: exec_globals binds the full builtins module, which contains
the dunder import function, so import statements are resolved exactly as
in a plain interpreter.  The math and random bindings add nothing to what
an import statement can reach. -/
def importAvailable : Bool := true

/-- Runs a modelled snippet: an import of module m succeeds exactly when
the import machinery is reachable and m is installed in the interpreter
(this is the documented behaviour of exec under the environment the source
builds; no allow list check happens at import time).  A failed import
raises ImportError with the interpreter message; print appends its
argument and a newline to the captured standard output. -/
def runProg (installed : String → Bool) : List PyStmt → String → Except String String
  | [], out => .ok out
  | .importMod m :: rest, out =>
    if importAvailable && installed m then runProg installed rest out
    else .error ("No module named '" ++ m ++ "'")
  | .printStr s :: rest, out => runProg installed rest (out ++ s ++ "\n")

/-- Embedding of LargeReasoningModel.execute_python_code on modelled
snippets: on success the formatted success string embedding the code text
and the captured output, on ImportError the distinguished ImportError
string. -/
def executePythonCode (installed : String → Bool) (prog : List PyStmt) : String :=
  match runProg installed prog "" with
  | .ok out =>
    "The following Python code was executed successfully:\n" ++ renderProg prog
      ++ "\nOutput:\n" ++ out
  | .error e => "ImportError occurred: " ++ e

/-- Lower casing of a character list, embedding the Python lower method on
the ascii text the driver handles. -/
def lowerChars (l : List Char) : List Char := l.map Char.toLower

/-- Embedding of the error classification test of the driver retry loop:
the attempt counts as failed exactly when the lower cased formatted result
contains the substring error. -/
def isErrorOutput (s : String) : Bool :=
  containsSub "error".toList (lowerChars s.toList)

/-- Message text announcing a step (from the driver loop). -/
def stepAnnounce (i : Nat) (step : String) : String :=
  "Let's do step " ++ toString i ++ ": " ++ step

/-- Message text recorded on a failed execution attempt. -/
def errMsgStr (i : Nat) (output : String) : String :=
  "An error occurred while executing step " ++ toString i ++ ": " ++ output

/-- Message text announcing a retry of a step. -/
def retryMsgStr (i retries maxR : Nat) : String :=
  "Retrying step " ++ toString i ++ " to ensure no further errors (Attempt "
    ++ toString (retries + 1) ++ " of " ++ toString maxR ++ ")"

/-- Message text recorded after the retry budget of a step is exhausted. -/
def finalErrStr (i maxR : Nat) : String :=
  "Step " ++ toString i ++ " encountered errors after " ++ toString maxR
    ++ " retries. Moving on to the next step."

/-- Builds an assistant message, the role used for every message the driver
loop records. -/
def assistantMsg (s : String) : Message := { role := "assistant", content := s }

/-- Embedding of the while loop of the driver that re-executes the snippet
of a step: out gives the formatted result of each execution attempt
(abstracting execute_python_code, whose result may vary between attempts
only through runtime state such as the random module), i is the step
number, maxR the retry bound and retries the loop counter.  The returned
pair holds the message texts recorded by the loop and the final success
flag.  Fuel equal to maxR makes the finite unrolling exact, because the
loop condition retries < maxR allows at most maxR rounds. -/
def execLoopF (out : Nat → String) (i maxR : Nat) : Nat → Nat → List String × Bool
  | 0, _ => ([], false)
  | fuel + 1, retries =>
    if retries < maxR then
      let o := out retries
      if isErrorOutput o then
        let p := execLoopF out i maxR fuel (retries + 1)
        (errMsgStr i o :: retryMsgStr i retries maxR :: p.1, p.2)
      else ([o], true)
    else ([], false)

/-- Messages appended to Memory while the driver processes one step (the
claims speak about the appended messages, so the embedding records the
sequence of add_message arguments): the step announcement, the model
response, and, when the response carries a python snippet, the messages of
the execution retry loop followed by the terminal failure message when no
attempt succeeded.  The source guard is the truthiness test
if python_code, which skips execution both when extract_python_code
returned None and when the stripped snippet is the empty string.
responses gives the model response of the step and outs the formatted
result of each execution attempt of its snippet. -/
def perStep (responses : Nat → String) (outs : Nat → Nat → String) (k : Nat)
    (step : String) : List Message :=
  let i := k + 1
  let resp := responses k
  let base := [assistantMsg (stepAnnounce i step), assistantMsg resp]
  match extract_python_code resp with
  | none => base
  | some code =>
    if code = "" then base
    else
      let p := execLoopF (outs k) i 3 3 0
      base ++ p.1.map assistantMsg
        ++ (if p.2 then [] else [assistantMsg (finalErrStr i 3)])

/-- Messages appended while the driver iterates over the parsed steps,
starting at position k (the source enumerates steps from one, so the step
number inside perStep is k + 1). -/
def runStepsFrom (responses : Nat → String) (outs : Nat → Nat → String) :
    Nat → List String → List Message
  | _, [] => []
  | k, step :: rest =>
    perStep responses outs k step ++ runStepsFrom responses outs (k + 1) rest

/-- Messages appended while the driver iterates over all parsed steps. -/
def runStepsAppended (responses : Nat → String) (outs : Nat → Nat → String)
    (steps : List String) : List Message :=
  runStepsFrom responses outs 0 steps

/-- Embedding of the step parsing retry loop of LargeReasoningModel.reasoning:
gen gives the model response of each call (indexed by the number of calls
already made).  The Python loop body assigns extract_steps(response) and
breaks; extract_steps returns None instead of raising when nothing
matches, and the try block only reacts to exceptions, so the first
iteration always breaks.  When the bound is zero the for loop falls
through to its else clause and raises the reported ValueError.  The result
carries the number of model calls made and the parsed value. -/
def parseLoop (gen : Nat → String) : Nat → Nat → Except String (Nat × Option (List String))
  | 0, _ => .error "Failed to parse steps from the assistant's response."
  | _ + 1, calls => .ok (calls + 1, extract_steps (gen calls))

/-- Embedding of the Python iteration enumerate(steps, 1) over the parsed
value: iterating over None raises a TypeError, iterating over a list
succeeds. -/
def enumerateSteps : Option (List String) → Except String (List String)
  | none => .error "TypeError: 'NoneType' object is not iterable"
  | some l => .ok l

/-- Expected transcript of one step whose snippet fails on all three
attempts: announcement, response, three error and retry message pairs,
terminal failure message. -/
def failBlock (responses : Nat → String) (outs : Nat → Nat → String) (k : Nat)
    (step : String) : List Message :=
  [assistantMsg (stepAnnounce (k + 1) step), assistantMsg (responses k),
   assistantMsg (errMsgStr (k + 1) (outs k 0)), assistantMsg (retryMsgStr (k + 1) 0 3),
   assistantMsg (errMsgStr (k + 1) (outs k 1)), assistantMsg (retryMsgStr (k + 1) 1 3),
   assistantMsg (errMsgStr (k + 1) (outs k 2)), assistantMsg (retryMsgStr (k + 1) 2 3),
   assistantMsg (finalErrStr (k + 1) 3)]

/-- Expected transcript of the whole step loop when every execution
attempt of every step fails: one failBlock per step, steps numbered from
one. -/
def expectedAllFail (responses : Nat → String) (outs : Nat → Nat → String) :
    Nat → List String → List Message
  | _, [] => []
  | k, s :: rest =>
    failBlock responses outs k s ++ expectedAllFail responses outs (k + 1) rest

/-- Word lists produced by splitting: every word is nonempty and free of
whitespace characters. -/
def GoodWords (ws : List (List Char)) : Prop :=
  ∀ w ∈ ws, w ≠ [] ∧ ∀ c ∈ w, isWS c = false

/-! Lemmas about splitting and joining whitespace separated words. -/

theorem pywordsAux_append (w : List Char) (rest acc : List Char)
    (hw : ∀ c ∈ w, isWS c = false) :
    pywordsAux (w ++ rest) acc = pywordsAux rest (w.reverse ++ acc) := by
  induction w generalizing acc with
  | nil => simp
  | cons c w ih =>
    have hc : isWS c = false := hw c (by simp)
    have hw' : ∀ x ∈ w, isWS x = false := fun x hx => hw x (by simp [hx])
    calc pywordsAux ((c :: w) ++ rest) acc
        = pywordsAux (w ++ rest) (c :: acc) := by simp [pywordsAux, hc]
      _ = pywordsAux rest (w.reverse ++ (c :: acc)) := ih (c :: acc) hw'
      _ = pywordsAux rest ((c :: w).reverse ++ acc) := by simp

theorem pywords_joinWS (ws : List (List Char)) (h : GoodWords ws) :
    pywords (joinWS ws) = ws := by
  induction ws with
  | nil => rfl
  | cons w tail ih =>
    cases tail with
    | nil =>
      obtain ⟨hne, hfree⟩ := h w (by simp)
      show pywordsAux (joinWS [w]) [] = [w]
      have : joinWS [w] = w ++ [] := by simp [joinWS]
      rw [this, pywordsAux_append w [] [] hfree]
      have : (w.reverse ++ []).isEmpty = false := by
        simp [List.isEmpty_iff, hne]
      simp [pywordsAux, this, List.isEmpty_iff] at *
      simp [hne]
    | cons w' tail' =>
      obtain ⟨hne, hfree⟩ := h w (by simp)
      have h' : GoodWords (w' :: tail') := fun x hx => h x (by simp [hx])
      show pywordsAux (joinWS (w :: w' :: tail')) [] = w :: w' :: tail'
      have hj : joinWS (w :: w' :: tail') = w ++ ' ' :: joinWS (w' :: tail') := rfl
      rw [hj, pywordsAux_append w _ [] hfree]
      have hws : isWS ' ' = true := rfl
      have hemp : (w.reverse ++ []).isEmpty = false := by
        simp [List.isEmpty_iff, hne]
      simp only [pywordsAux, hws, if_true, hemp, Bool.false_eq_true, if_false]
      have hrr : (w.reverse ++ []).reverse = w := by simp
      rw [hrr]
      exact congrArg (w :: ·) (ih h')

theorem pywordsAux_good (l : List Char) (acc : List Char)
    (hacc : ∀ c ∈ acc, isWS c = false) :
    GoodWords (pywordsAux l acc) := by
  induction l generalizing acc with
  | nil =>
    intro w hw
    by_cases he : acc.isEmpty
    · simp [pywordsAux, he] at hw
    · simp only [pywordsAux, he, Bool.false_eq_true, if_false, List.mem_singleton] at hw
      subst hw
      refine ⟨?_, ?_⟩
      · simp only [ne_eq, List.reverse_eq_nil_iff]
        simpa [List.isEmpty_iff] using he
      · intro c hc
        exact hacc c (List.mem_reverse.mp hc)
  | cons c rest ih =>
    by_cases hc : isWS c
    · by_cases he : acc.isEmpty
      · intro w hw
        simp only [pywordsAux, hc, if_true, he] at hw
        exact ih [] (by simp) w hw
      · intro w hw
        simp only [pywordsAux, hc, if_true, he, Bool.false_eq_true, if_false,
          List.mem_cons] at hw
        rcases hw with hw | hw
        · subst hw
          refine ⟨?_, ?_⟩
          · simp only [ne_eq, List.reverse_eq_nil_iff]
            simpa [List.isEmpty_iff] using he
          · intro x hx
            exact hacc x (List.mem_reverse.mp hx)
        · exact ih [] (by simp) w hw
    · intro w hw
      simp only [pywordsAux, hc, Bool.false_eq_true, if_false] at hw
      refine ih (c :: acc) ?_ w hw
      intro x hx
      rcases List.mem_cons.mp hx with hx | hx
      · subst hx; simpa using hc
      · exact hacc x hx

theorem pywords_good (l : List Char) : GoodWords (pywords l) :=
  pywordsAux_good l [] (by simp)

theorem length_markLast (d : List Char) (ws : List (List Char)) :
    (markLast d ws).length = ws.length := by
  induction ws with
  | nil => rfl
  | cons w tail ih =>
    cases tail with
    | nil => rfl
    | cons w' tail' => simpa [markLast] using ih

theorem joinWS_cons_of_ne (w : List Char) (tail : List (List Char)) (h : tail ≠ []) :
    joinWS (w :: tail) = w ++ ' ' :: joinWS tail := by
  cases tail with
  | nil => exact absurd rfl h
  | cons w' tail' => rfl

theorem markLast_ne_nil (d : List Char) (ws : List (List Char)) (h : ws ≠ []) :
    markLast d ws ≠ [] := by
  intro hc
  have := length_markLast d ws
  rw [hc] at this
  exact h (List.length_eq_zero.mp this.symm)

theorem joinWS_markLast (d : List Char) (ws : List (List Char)) (h : ws ≠ []) :
    joinWS (markLast d ws) = joinWS ws ++ d := by
  induction ws with
  | nil => exact absurd rfl h
  | cons w tail ih =>
    cases tail with
    | nil => rfl
    | cons w' tail' =>
      have hne : (w' :: tail' : List (List Char)) ≠ [] := by simp
      have hm : markLast d (w :: w' :: tail') = w :: markLast d (w' :: tail') := rfl
      rw [hm, joinWS_cons_of_ne _ _ (markLast_ne_nil d _ hne),
        joinWS_cons_of_ne _ _ hne, ih hne]
      simp

theorem markLast_good (d : List Char) (ws : List (List Char))
    (hws : GoodWords ws) (hfree : ∀ c ∈ d, isWS c = false) :
    GoodWords (markLast d ws) := by
  induction ws with
  | nil => intro w hw; simp [markLast] at hw
  | cons w tail ih =>
    cases tail with
    | nil =>
      intro x hx
      simp only [markLast, List.mem_singleton] at hx
      subst hx
      obtain ⟨hne, hf⟩ := hws w (by simp)
      refine ⟨by simp [hne], ?_⟩
      intro c hc
      rcases List.mem_append.mp hc with hc | hc
      · exact hf c hc
      · exact hfree c hc
    | cons w' tail' =>
      intro x hx
      simp only [markLast, List.mem_cons] at hx
      rcases hx with hx | hx
      · subst hx; exact hws x (by simp)
      · exact ih (fun y hy => hws y (by simp [List.mem_cons.mp hy])) x
          (by simpa [markLast] using hx)

/-! Lemmas about containsSub and splitOnFirst. -/

theorem containsSub_of_pre (pat s : List Char) (h : pat <+: s) :
    containsSub pat s = true := by
  cases s with
  | nil =>
    have : pat = [] := List.prefix_nil.mp h
    subst this
    rfl
  | cons c rest =>
    have : pat.isPrefixOf (c :: rest) = true := List.isPrefixOf_iff_prefix.mpr h
    simp [containsSub, this]

theorem splitOnFirst_of_not_contains (pat l : List Char)
    (h : containsSub pat l = false) : splitOnFirst pat l = none := by
  induction l with
  | nil =>
    have : pat.isPrefixOf ([] : List Char) = false := by simpa [containsSub] using h
    simp [splitOnFirst, this]
  | cons c rest ih =>
    have h' := h
    simp only [containsSub, Bool.or_eq_false_iff] at h'
    rw [splitOnFirst, if_neg (by simp [h'.1]), ih h'.2]
    rfl

theorem borderFreeB_spec (pat : List Char) (hbf : borderFreeB pat = true) :
    ∀ k, 0 < k → k < pat.length → pat.drop (pat.length - k) ≠ pat.take k := by
  intro k hk hklen
  have hmem : k ∈ List.range pat.length := List.mem_range.mpr hklen
  have := (List.all_eq_true.mp hbf) k hmem
  simp only [Bool.or_eq_true, beq_iff_eq, bne_iff_ne, ne_eq] at this
  rcases this with h0 | hne
  · omega
  · exact hne

theorem no_early_match (pat s tail : List Char) (hbf : borderFreeB pat = true)
    (hs : containsSub pat s = false) (hne : s ≠ []) :
    ¬ pat <+: s ++ (pat ++ tail) := by
  intro hp
  have hslen : 0 < s.length := List.length_pos.mpr hne
  have htake : pat = (s ++ (pat ++ tail)).take pat.length :=
    List.prefix_iff_eq_take.mp hp
  rcases le_or_lt pat.length s.length with hle | hlt
  · have h1 : List.take pat.length (s ++ (pat ++ tail)) = List.take pat.length s :=
      List.take_append_of_le_length hle
    have hpre : pat <+: s := List.prefix_iff_eq_take.mpr (htake.trans h1)
    rw [containsSub_of_pre pat s hpre] at hs
    exact Bool.true_eq_false.mp hs
  · have hk0pos : 0 < pat.length - s.length := by omega
    have hk0lt : pat.length - s.length < pat.length := by omega
    have h1 : List.take pat.length (s ++ (pat ++ tail))
        = s ++ List.take (pat.length - s.length) pat := by
      rw [List.take_append_eq_append_take,
        List.take_of_length_le (le_of_lt hlt),
        List.take_append_of_le_length
          (by omega : pat.length - s.length ≤ pat.length)]
    have hsplit : pat = s ++ pat.take (pat.length - s.length) := htake.trans h1
    have hdrop : pat.drop s.length = pat.take (pat.length - s.length) := by
      conv_lhs => rw [hsplit]
      exact List.drop_left s (pat.take (pat.length - s.length))
    have hcontra := borderFreeB_spec pat hbf (pat.length - s.length) hk0pos hk0lt
    rw [show pat.length - (pat.length - s.length) = s.length by omega] at hcontra
    exact hcontra hdrop

theorem splitOnFirst_at_marker (pat pre tail : List Char)
    (hbf : borderFreeB pat = true) (hpre : containsSub pat pre = false) :
    splitOnFirst pat (pre ++ (pat ++ tail)) = some (pre, tail) := by
  induction pre with
  | nil =>
    have hpne : pat ≠ [] := by
      intro hc
      subst hc
      simp [containsSub, List.isPrefixOf] at hpre
    cases hp : pat with
    | nil => exact absurd hp hpne
    | cons p ps =>
      rw [← hp]
      have hshape : pat ++ tail = p :: (ps ++ tail) := by rw [hp]; rfl
      have hispre : pat.isPrefixOf (pat ++ tail) = true :=
        List.isPrefixOf_iff_prefix.mpr (List.prefix_append pat tail)
      rw [List.nil_append, hshape, splitOnFirst, ← hshape, if_pos hispre,
        List.drop_left pat tail]
  | cons c pre' ih =>
    have h' := hpre
    simp only [containsSub, Bool.or_eq_false_iff] at h'
    have hnotpre : ¬ pat.isPrefixOf ((c :: pre') ++ (pat ++ tail)) = true := by
      intro hc
      exact no_early_match pat (c :: pre') tail hbf hpre (by simp)
        (List.isPrefixOf_iff_prefix.mp hc)
    rw [List.cons_append, splitOnFirst, if_neg (by simpa using hnotpre), ih h'.2]
    rfl

/-! Lemmas about the step extraction. -/

theorem extractAllF_of_no_open (fuel : Nat) (l : List Char)
    (h : containsSub stepOpenTag l = false) : extractAllF fuel l = [] := by
  cases fuel with
  | zero => rfl
  | succ f =>
    rw [extractAllF, splitOnFirst_of_not_contains stepOpenTag l h]

theorem extractAllF_one (fuel : Nat) (mid b post : List Char)
    (hfuel : 0 < fuel)
    (h3 : containsSub stepOpenTag mid = false)
    (h4 : containsSub stepCloseTag b = false)
    (h5 : containsSub stepOpenTag post = false) :
    extractAllF fuel
      (mid ++ (stepOpenTag ++ (b ++ (stepCloseTag ++ post)))) = [b] := by
  cases fuel with
  | zero => omega
  | succ f =>
    rw [extractAllF,
      splitOnFirst_at_marker stepOpenTag mid (b ++ (stepCloseTag ++ post))
        (by decide) h3]
    simp only
    rw [splitOnFirst_at_marker stepCloseTag b post (by decide) h4]
    simp only
    rw [extractAllF_of_no_open f post h5]

theorem extractAllF_two (fuel : Nat) (pre a mid b post : List Char)
    (hfuel : (pre ++ (stepOpenTag ++ (a ++ (stepCloseTag ++
        (mid ++ (stepOpenTag ++ (b ++ (stepCloseTag ++ post)))))))).length < fuel)
    (h1 : containsSub stepOpenTag pre = false)
    (h2 : containsSub stepCloseTag a = false)
    (h3 : containsSub stepOpenTag mid = false)
    (h4 : containsSub stepCloseTag b = false)
    (h5 : containsSub stepOpenTag post = false) :
    extractAllF fuel
      (pre ++ (stepOpenTag ++ (a ++ (stepCloseTag ++
        (mid ++ (stepOpenTag ++ (b ++ (stepCloseTag ++ post)))))))) = [a, b] := by
  cases fuel with
  | zero => omega
  | succ f =>
    rw [extractAllF,
      splitOnFirst_at_marker stepOpenTag pre
        (a ++ (stepCloseTag ++ (mid ++ (stepOpenTag ++ (b ++ (stepCloseTag ++ post))))))
        (by decide) h1]
    simp only
    rw [splitOnFirst_at_marker stepCloseTag a
        (mid ++ (stepOpenTag ++ (b ++ (stepCloseTag ++ post)))) (by decide) h2]
    simp only
    rw [extractAllF_one f mid b post ?_ h3 h4 h5]
    have hlen := hfuel
    simp only [List.length_append] at hlen
    have hop : stepOpenTag.length = 6 := rfl
    have hcl : stepCloseTag.length = 7 := rfl
    omega

/-! Lemmas about the retention scan. -/

theorem scanRev_eq_take (l : List Message) (rem : Int) (acc : List Message) :
    scanRev l rem acc = (l.take (specKeepCount rem l)).reverse ++ acc := by
  induction l generalizing rem acc with
  | nil => rfl
  | cons m rest ih =>
    by_cases hc : m.role = "system" ∨ 0 ≤ rem - (tokenCount m.content : Int)
    · rw [scanRev, if_pos hc, specKeepCount, if_pos hc,
        ih (rem - (tokenCount m.content : Int)) (m :: acc)]
      simp
    · rw [scanRev, if_neg hc, specKeepCount, if_neg hc]
      rfl

theorem sumTok_cons (m : Message) (l : List Message) :
    sumTok (m :: l) = tokenCount m.content + sumTok l := by
  simp [sumTok]

theorem nonSysTok_cons (m : Message) (l : List Message) :
    nonSysTok (m :: l)
      = (if m.role = "system" then 0 else tokenCount m.content) + nonSysTok l := by
  by_cases hm : m.role = "system"
  · simp [nonSysTok, List.filter_cons, hm]
  · simp [nonSysTok, List.filter_cons, hm]

theorem nonSysTok_le_sumTok (l : List Message) : nonSysTok l ≤ sumTok l := by
  induction l with
  | nil => simp [nonSysTok, sumTok]
  | cons m rest ih =>
    rw [nonSysTok_cons, sumTok_cons]
    by_cases hm : m.role = "system" <;> simp [hm] <;> omega

theorem scanRev_nonSys_bound (l : List Message) (rem : Int) (acc : List Message) :
    (nonSysTok (scanRev l rem acc) : Int) ≤ max rem 0 + (nonSysTok acc : Int) := by
  induction l generalizing rem acc with
  | nil =>
    simp [scanRev, le_max_right]
  | cons m rest ih =>
    by_cases hc : m.role = "system" ∨ 0 ≤ rem - (tokenCount m.content : Int)
    · rw [scanRev, if_pos hc]
      refine le_trans (ih (rem - (tokenCount m.content : Int)) (m :: acc)) ?_
      by_cases hm : m.role = "system"
      · rw [nonSysTok_cons, if_pos hm]
        have hmax : max (rem - (tokenCount m.content : Int)) 0 ≤ max rem 0 :=
          max_le_max (by omega) le_rfl
        push_cast
        omega
      · have hnn : 0 ≤ rem - (tokenCount m.content : Int) := hc.resolve_left hm
        rw [nonSysTok_cons, if_neg hm]
        rw [max_eq_left hnn]
        have : rem ≤ max rem 0 := le_max_left rem 0
        push_cast
        omega
    · rw [scanRev, if_neg hc]
      have : (0 : Int) ≤ max rem 0 := le_max_right rem 0
      omega

theorem scanRev_ne_nil_of_acc (l : List Message) (rem : Int) (acc : List Message)
    (h : acc ≠ []) : scanRev l rem acc ≠ [] := by
  induction l generalizing rem acc with
  | nil => simpa [scanRev] using h
  | cons m rest ih =>
    by_cases hc : m.role = "system" ∨ 0 ≤ rem - (tokenCount m.content : Int)
    · rw [scanRev, if_pos hc]
      exact ih _ _ (by simp)
    · rw [scanRev, if_neg hc]
      exact h

theorem specKeepCount_cut (l : List Message) (rem : Int)
    (h : specKeepCount rem l < l.length) :
    (l.getD (specKeepCount rem l) ⟨"", ""⟩).role ≠ "system"
    ∧ rem - (sumTok (l.take (specKeepCount rem l)) : Int)
        - (tokenCount ((l.getD (specKeepCount rem l) ⟨"", ""⟩).content) : Int) < 0 := by
  induction l generalizing rem with
  | nil => simp at h
  | cons m rest ih =>
    by_cases hc : m.role = "system" ∨ 0 ≤ rem - (tokenCount m.content : Int)
    · rw [specKeepCount, if_pos hc] at h ⊢
      have h' : specKeepCount (rem - (tokenCount m.content : Int)) rest < rest.length := by
        simpa using h
      have := ih (rem - (tokenCount m.content : Int)) h'
      simp only [List.getD_cons_succ, List.take_succ_cons, sumTok_cons]
      refine ⟨this.1, ?_⟩
      push_cast
      omega
    · rw [specKeepCount, if_neg hc] at h ⊢
      push_neg at hc
      simp only [List.getD_cons_zero, List.take_zero]
      refine ⟨hc.1, ?_⟩
      have h2 := hc.2
      simp [sumTok]
      omega

theorem updateContext_overflow (m : Memory)
    (h : m.contextLength < sumTok m.history) :
    (Memory.updateContext m).history
      = m.history.drop (m.history.length
          - specKeepCount (m.contextLength : Int) m.history.reverse) := by
  rw [Memory.updateContext, if_neg (by omega)]
  simp only
  rw [scanRev_eq_take, List.append_nil, List.take_reverse, List.reverse_reverse]

/-! Claim theorems. -/

/-- Claim C1: when the total whitespace token count of the history (after the
append performed by add_message) exceeds the budget, the retention pass
scans from most recent to oldest, keeps a message exactly when its role is
system or the running remaining budget minus its token count is non
negative (subtracting the token count of every kept message, system ones
included), stops at the first non system message that would overdraw,
discards everything older, and the resulting history is the kept suffix in
chronological order. -/
theorem C1_retention_pass (m : Memory) (msg : Message)
    (hov : m.contextLength < sumTok (m.history ++ [msg])) :
    (Memory.add_message m msg).history
        = retentionSpec m.contextLength (m.history ++ [msg])
    ∧ (Memory.add_message m msg).history <:+ (m.history ++ [msg])
    ∧ (specKeepCount (m.contextLength : Int) (m.history ++ [msg]).reverse
          < (m.history ++ [msg]).length →
        ((m.history ++ [msg]).reverse.getD
            (specKeepCount (m.contextLength : Int) (m.history ++ [msg]).reverse)
            ⟨"", ""⟩).role ≠ "system"
        ∧ (m.contextLength : Int)
            - (sumTok ((m.history ++ [msg]).reverse.take
                (specKeepCount (m.contextLength : Int)
                  (m.history ++ [msg]).reverse)) : Int)
            - (tokenCount (((m.history ++ [msg]).reverse.getD
                (specKeepCount (m.contextLength : Int) (m.history ++ [msg]).reverse)
                ⟨"", ""⟩).content) : Int) < 0) := by
  have hist_eq : (Memory.add_message m msg).history
      = (m.history ++ [msg]).drop ((m.history ++ [msg]).length
          - specKeepCount (m.contextLength : Int) (m.history ++ [msg]).reverse) :=
    updateContext_overflow { m with history := m.history ++ [msg] } hov
  refine ⟨hist_eq, ?_, ?_⟩
  · rw [hist_eq]
    exact List.drop_suffix _ _
  · intro hk
    have hk' : specKeepCount (m.contextLength : Int) (m.history ++ [msg]).reverse
        < (m.history ++ [msg]).reverse.length := by
      rwa [List.length_reverse]
    exact specKeepCount_cut (m.history ++ [msg]).reverse (m.contextLength : Int) hk'

/-- Witness for C1 at a concrete overflowing memory: a five token user
message followed by a six token user message against a budget of nine
drops the older message. -/
theorem C1_retention_pass_witness :
    ((9 : Nat) < sumTok ([⟨"user", "a b c d e"⟩] ++ [⟨"user", "f g h i j k"⟩])
      ∧ (Memory.add_message ⟨9, [⟨"user", "a b c d e"⟩]⟩ ⟨"user", "f g h i j k"⟩).history
          = retentionSpec 9 ([⟨"user", "a b c d e"⟩] ++ [⟨"user", "f g h i j k"⟩])) :=
  ⟨by decide,
    (C1_retention_pass ⟨9, [⟨"user", "a b c d e"⟩]⟩ ⟨"user", "f g h i j k"⟩ (by decide)).1⟩

/-- Claim C2 (counterexample): a concrete run of add_message calls after
which the total token count exceeds the budget while a non system message
is still retained, refuting the stated invariant that an over budget
history contains only system messages. -/
theorem C2_counterexample :
    ((Memory.add_message (Memory.add_message (Memory.init 10)
          ⟨"system", "a a a a a a a a a a a a"⟩) ⟨"user", "x y"⟩).contextLength
        < sumTok (Memory.add_message (Memory.add_message (Memory.init 10)
          ⟨"system", "a a a a a a a a a a a a"⟩) ⟨"user", "x y"⟩).history)
    ∧ ¬ (∀ msg ∈ (Memory.add_message (Memory.add_message (Memory.init 10)
          ⟨"system", "a a a a a a a a a a a a"⟩) ⟨"user", "x y"⟩).history,
        msg.role = "system") := by decide

/-- Claim C2 (amended): after every add_message the total token count of
the non system messages of the history is at most the budget; the total
can exceed the budget only by the token mass of retained system
messages. -/
theorem C2_amended_nonsystem_within_budget (m : Memory) (msg : Message) :
    nonSysTok (Memory.add_message m msg).history ≤ m.contextLength := by
  by_cases hle : sumTok (m.history ++ [msg]) ≤ m.contextLength
  · have heq : (Memory.add_message m msg).history = m.history ++ [msg] := by
      simp [Memory.add_message, Memory.updateContext, hle]
    rw [heq]
    exact le_trans (nonSysTok_le_sumTok _) hle
  · have heq : (Memory.add_message m msg).history
        = scanRev (m.history ++ [msg]).reverse (m.contextLength : Int) [] := by
      simp [Memory.add_message, Memory.updateContext, hle]
    rw [heq]
    have hb := scanRev_nonSys_bound (m.history ++ [msg]).reverse
      (m.contextLength : Int) []
    have hmax : max ((m.contextLength : Int)) 0 = (m.contextLength : Int) :=
      max_eq_left (Int.natCast_nonneg _)
    have hnil : nonSysTok ([] : List Message) = 0 := rfl
    rw [hmax, hnil] at hb
    exact_mod_cast (by simpa using hb)

/-- Claim C9: truncate is a no-op on a message whose content is already
within the token budget, for every mode, hence idempotent once within
budget. -/
theorem C9_truncate_noop (m : Message) (maxTokens : Nat) (mode : String)
    (sample : List (List Char)) (h : tokenCount m.content ≤ maxTokens) :
    Message.truncate m maxTokens mode sample = m := by
  have hng : ¬ maxTokens < (pywords m.content.data).length := by
    have h' := h
    simp only [tokenCount, String.toList] at h'
    omega
  simp [Message.truncate, truncateContent, hng]

/-- Witness for C9 at a concrete short message, using the mix mode. -/
theorem C9_truncate_noop_witness :
    tokenCount "a b" ≤ 5
    ∧ Message.truncate ⟨"user", "a b"⟩ 5 "mix" [] = ⟨"user", "a b"⟩ :=
  ⟨by decide, C9_truncate_noop ⟨"user", "a b"⟩ 5 "mix" [] (by decide)⟩

/-- Claim C3 (code behaviour at the failing input): the step parsing loop
never retries, because extract_steps returns none instead of raising, so
the try block breaks on the first iteration for every model client; with
the default bound of five the loop makes exactly one call and returns the
parsed value unchanged, a step free response parses to none, and the
subsequent enumeration over none is the Python TypeError, not the reported
parse failure ValueError. -/
theorem C3_parse_retry_dead :
    (∀ gen : Nat → String, parseLoop gen 5 0 = Except.ok (1, extract_steps (gen 0)))
    ∧ extract_steps "I cannot produce steps." = none
    ∧ enumerateSteps none
        = Except.error "TypeError: 'NoneType' object is not iterable" :=
  ⟨fun _ => rfl, by decide, rfl⟩

/-- Claim C4 (counterexample): add_message can empty the history on its
own: starting from the reachable memory holding one short user message
with budget nine, adding a ten token user message triggers the retention
pass, whose scan rejects the new oversized non system message immediately
and discards everything, leaving an empty history with no clear call. -/
theorem C4_counterexample :
    (Memory.add_message (Memory.init 10) ⟨"user", "hi"⟩).history ≠ []
    ∧ (Memory.add_message (Memory.add_message (Memory.init 10) ⟨"user", "hi"⟩)
        ⟨"user", "a a a a a a a a a a"⟩).history = [] := by decide

/-- Claim C4 (amended): add_message leaves a non empty history whenever the
newly added message is a system message or fits inside the budget by
itself; only an oversized non system message can cause the retention pass
to discard the whole history. -/
theorem C4_amended_nonempty (m : Memory) (msg : Message)
    (_hne : m.history ≠ [])
    (hk : msg.role = "system" ∨ tokenCount msg.content ≤ m.contextLength) :
    (Memory.add_message m msg).history ≠ [] := by
  by_cases hle : sumTok (m.history ++ [msg]) ≤ m.contextLength
  · have heq : (Memory.add_message m msg).history = m.history ++ [msg] := by
      simp [Memory.add_message, Memory.updateContext, hle]
    rw [heq]
    simp
  · have heq : (Memory.add_message m msg).history
        = scanRev (m.history ++ [msg]).reverse (m.contextLength : Int) [] := by
      simp [Memory.add_message, Memory.updateContext, hle]
    rw [heq]
    have hrev : (m.history ++ [msg]).reverse = msg :: m.history.reverse := by
      simp
    rw [hrev]
    have hcond : msg.role = "system"
        ∨ 0 ≤ (m.contextLength : Int) - (tokenCount msg.content : Int) := by
      rcases hk with hk | hk
      · exact Or.inl hk
      · right
        have : (tokenCount msg.content : Int) ≤ (m.contextLength : Int) := by
          exact_mod_cast hk
        omega
    rw [scanRev, if_pos hcond]
    exact scanRev_ne_nil_of_acc _ _ _ (by simp)

/-- Witness for the amended C4: a small user message within budget keeps
the history non empty. -/
theorem C4_amended_nonempty_witness :
    ((⟨9, [⟨"user", "hi"⟩]⟩ : Memory).history ≠ []
      ∧ (("user" : String) = "system" ∨ tokenCount "x y" ≤ 9)
      ∧ (Memory.add_message ⟨9, [⟨"user", "hi"⟩]⟩ ⟨"user", "x y"⟩).history ≠ []) :=
  ⟨by decide, Or.inr (by decide),
    C4_amended_nonempty ⟨9, [⟨"user", "hi"⟩]⟩ ⟨"user", "x y"⟩ (by decide)
      (Or.inr (by decide))⟩

/-- Claim C5 (counterexample): extract_steps does not trim the captured
span bodies: on a response with exactly two step spans whose first body
carries surrounding spaces, the result keeps the spaces, so it differs
from the trimmed list the claim promises. -/
theorem C5_counterexample :
    extract_steps "<step> a </step><step>b</step>" = some [" a ", "b"]
    ∧ extract_steps "<step> a </step><step>b</step>" ≠ some ["a", "b"] := by decide

/-- Claim C5 (amended): for every response containing exactly two step
spans (no stray opening tag before, between or after them, and no closing
tag inside a body), extract_steps returns exactly the two span bodies in
order, as captured, without trimming. -/
theorem C5_amended_untrimmed (pre a mid b post : List Char)
    (h1 : containsSub stepOpenTag pre = false)
    (h2 : containsSub stepCloseTag a = false)
    (h3 : containsSub stepOpenTag mid = false)
    (h4 : containsSub stepCloseTag b = false)
    (h5 : containsSub stepOpenTag post = false) :
    extract_steps (String.mk (pre ++ (stepOpenTag ++ (a ++ (stepCloseTag ++
        (mid ++ (stepOpenTag ++ (b ++ (stepCloseTag ++ post)))))))))
      = some [String.mk a, String.mk b] := by
  have hres : extractAllF ((pre ++ (stepOpenTag ++ (a ++ (stepCloseTag ++
        (mid ++ (stepOpenTag ++ (b ++ (stepCloseTag ++ post)))))))).length + 1)
      (pre ++ (stepOpenTag ++ (a ++ (stepCloseTag ++
        (mid ++ (stepOpenTag ++ (b ++ (stepCloseTag ++ post)))))))) = [a, b] :=
    extractAllF_two _ pre a mid b post (Nat.lt_succ_self _) h1 h2 h3 h4 h5
  have ht : (String.mk (pre ++ (stepOpenTag ++ (a ++ (stepCloseTag ++
      (mid ++ (stepOpenTag ++ (b ++ (stepCloseTag ++ post))))))))).toList
      = pre ++ (stepOpenTag ++ (a ++ (stepCloseTag ++
        (mid ++ (stepOpenTag ++ (b ++ (stepCloseTag ++ post))))))) := rfl
  simp only [extract_steps, ht, hres]
  rfl

/-- Witness for the amended C5 at a concrete two step response. -/
theorem C5_amended_untrimmed_witness :
    containsSub stepOpenTag "Plan: ".toList = false
    ∧ containsSub stepCloseTag " first ".toList = false
    ∧ containsSub stepOpenTag " then ".toList = false
    ∧ containsSub stepCloseTag "second".toList = false
    ∧ containsSub stepOpenTag " done".toList = false
    ∧ extract_steps (String.mk ("Plan: ".toList ++ (stepOpenTag ++ (" first ".toList
        ++ (stepCloseTag ++ (" then ".toList ++ (stepOpenTag ++ ("second".toList
        ++ (stepCloseTag ++ " done".toList)))))))))
        = some [String.mk " first ".toList, String.mk "second".toList] :=
  ⟨by decide, by decide, by decide, by decide, by decide,
    C5_amended_untrimmed _ _ _ _ _ (by decide) (by decide) (by decide)
      (by decide) (by decide)⟩

/-- Claim C6 (counterexample): the token count after truncation is not
min of the original count and max_tokens when max_tokens is zero (the
appended ellipsis is itself a token), and the kept tokens are not exactly
the first max_tokens tokens of the original content, because the ellipsis
is glued onto the last kept token. -/
theorem C6_counterexample :
    tokenCount (truncateContent "a b c" 0 "start" []) ≠ min (tokenCount "a b c") 0
    ∧ contentTokens (truncateContent "a b c" 2 "start" [])
        ≠ (contentTokens "a b c").take 2 := by decide

/-- Claim C6 (amended): for modes start and end and max_tokens at least
one, the token count after truncation is exactly min of the original count
and max_tokens; content within budget is left unchanged, and otherwise the
kept tokens are the first (resp. last) max_tokens tokens of the original
content with the literal ellipsis glued onto the last one. -/
theorem C6_amended_start_end (content : String) (maxTokens : Nat)
    (sample : List (List Char)) (mode : String)
    (hpos : 1 ≤ maxTokens) (hm : mode = "start" ∨ mode = "end") :
    tokenCount (truncateContent content maxTokens mode sample)
        = min (tokenCount content) maxTokens
    ∧ (tokenCount content ≤ maxTokens →
        truncateContent content maxTokens mode sample = content)
    ∧ (maxTokens < tokenCount content →
        contentTokens (truncateContent content maxTokens mode sample)
          = markLast ellipsisChars
              (if mode = "start" then (contentTokens content).take maxTokens
               else pyLastSlice (contentTokens content) maxTokens)) := by
  have hdots : ∀ c ∈ ellipsisChars, isWS c = false := by decide
  by_cases hle : tokenCount content ≤ maxTokens
  · have hng : ¬ maxTokens < (pywords content.data).length := by
      have h' := hle
      simp only [tokenCount, String.toList] at h'
      omega
    have heq : truncateContent content maxTokens mode sample = content := by
      simp [truncateContent, hng]
    refine ⟨?_, fun _ => heq, fun hgt => absurd hgt (by omega)⟩
    rw [heq, min_eq_left hle]
  · have hgt : maxTokens < tokenCount content := by omega
    have hcond : maxTokens < (pywords content.data).length := by
      have h' := hgt
      simp only [tokenCount, String.toList] at h'
      omega
    rcases hm with hmode | hmode <;> subst hmode
    · have hres : truncateContent content maxTokens "start" sample
          = String.mk (joinWS ((pywords content.toList).take maxTokens)) ++ "..." := by
        simp [truncateContent, hcond]
      have hgood : GoodWords ((pywords content.toList).take maxTokens) :=
        fun w hw => pywords_good content.toList w (List.take_subset _ _ hw)
      have hklen : ((pywords content.toList).take maxTokens).length = maxTokens := by
        simp only [List.length_take]
        have : maxTokens ≤ (pywords content.toList).length := le_of_lt hcond
        omega
      have hkne : (pywords content.toList).take maxTokens ≠ [] := by
        intro hc
        rw [hc] at hklen
        simp at hklen
        omega
      have htoks : contentTokens (truncateContent content maxTokens "start" sample)
          = markLast ellipsisChars ((pywords content.toList).take maxTokens) := by
        rw [hres]
        have hdata : (String.mk (joinWS ((pywords content.toList).take maxTokens))
            ++ "...").toList
            = joinWS ((pywords content.toList).take maxTokens) ++ ellipsisChars := rfl
        rw [contentTokens, hdata, ← joinWS_markLast ellipsisChars _ hkne]
        exact pywords_joinWS _ (markLast_good _ _ hgood hdots)
      refine ⟨?_, fun hle' => absurd hle' (by omega),
        fun _ => by simp only [htoks]; rfl⟩
      have : tokenCount (truncateContent content maxTokens "start" sample)
          = (markLast ellipsisChars ((pywords content.toList).take maxTokens)).length := by
        rw [tokenCount, ← htoks]
        rfl
      rw [this, length_markLast, hklen, min_eq_right (le_of_lt hgt)]
    · have hmne : ("end" : String) ≠ "start" := by decide
      have hres : truncateContent content maxTokens "end" sample
          = String.mk (joinWS (pyLastSlice (pywords content.toList) maxTokens))
              ++ "..." := by
        simp [truncateContent, hcond]
      have hkeq : pyLastSlice (pywords content.toList) maxTokens
          = (pywords content.toList).drop ((pywords content.toList).length - maxTokens) := by
        rw [pyLastSlice, if_neg (by omega)]
      have hgood : GoodWords (pyLastSlice (pywords content.toList) maxTokens) := by
        rw [hkeq]
        exact fun w hw => pywords_good content.toList w (List.drop_subset _ _ hw)
      have hklen : (pyLastSlice (pywords content.toList) maxTokens).length = maxTokens := by
        rw [hkeq, List.length_drop]
        have : maxTokens ≤ (pywords content.toList).length := le_of_lt hcond
        omega
      have hkne : pyLastSlice (pywords content.toList) maxTokens ≠ [] := by
        intro hc
        rw [hc] at hklen
        simp at hklen
        omega
      have htoks : contentTokens (truncateContent content maxTokens "end" sample)
          = markLast ellipsisChars (pyLastSlice (pywords content.toList) maxTokens) := by
        rw [hres]
        have hdata : (String.mk (joinWS (pyLastSlice (pywords content.toList) maxTokens))
            ++ "...").toList
            = joinWS (pyLastSlice (pywords content.toList) maxTokens) ++ ellipsisChars := rfl
        rw [contentTokens, hdata, ← joinWS_markLast ellipsisChars _ hkne]
        exact pywords_joinWS _ (markLast_good _ _ hgood hdots)
      refine ⟨?_, fun hle' => absurd hle' (by omega),
        fun _ => by simp only [htoks]; rw [if_neg hmne]; rfl⟩
      have : tokenCount (truncateContent content maxTokens "end" sample)
          = (markLast ellipsisChars (pyLastSlice (pywords content.toList) maxTokens)).length := by
        rw [tokenCount, ← htoks]
        rfl
      rw [this, length_markLast, hklen, min_eq_right (le_of_lt hgt)]

/-- Witness for the amended C6: truncating a four token content to two
tokens from the start keeps the first two tokens with the ellipsis on the
second one. -/
theorem C6_amended_start_end_witness :
    (1 ≤ 2 ∧ (("start" : String) = "start" ∨ ("start" : String) = "end"))
    ∧ tokenCount (truncateContent "a b c d" 2 "start" []) = min (tokenCount "a b c d") 2 :=
  ⟨⟨by decide, Or.inl rfl⟩,
    (C6_amended_start_end "a b c d" 2 [] "start" (by decide) (Or.inl rfl)).1⟩

/-! Lemmas about the execution retry loop of the driver. -/

theorem execLoopF_succ (out : Nat → String) (i maxR fuel retries : Nat) :
    execLoopF out i maxR (fuel + 1) retries =
      if retries < maxR then
        (if isErrorOutput (out retries) then
          (errMsgStr i (out retries) :: retryMsgStr i retries maxR ::
              (execLoopF out i maxR fuel (retries + 1)).1,
            (execLoopF out i maxR fuel (retries + 1)).2)
        else ([out retries], true))
      else ([], false) := rfl

theorem execLoopF_allFail (out : Nat → String) (i : Nat)
    (herr : ∀ r, isErrorOutput (out r) = true) :
    execLoopF out i 3 3 0
      = ([errMsgStr i (out 0), retryMsgStr i 0 3, errMsgStr i (out 1),
          retryMsgStr i 1 3, errMsgStr i (out 2), retryMsgStr i 2 3], false) := by
  simp [execLoopF, herr]

/-- Claim C7 (counterexample): with the os module installed, the snippet
importing os outside the allow list executes successfully and returns the
success string, which contains no ImportError marker; the environment the
source builds exposes the full builtins module, so the import goes
through. -/
theorem C7_counterexample :
    executePythonCode (fun m => m == "os") [PyStmt.importMod "os"]
        = "The following Python code was executed successfully:\nimport os\nOutput:\n"
    ∧ containsSub "ImportError".toList
        ((executePythonCode (fun m => m == "os") [PyStmt.importMod "os"]).toList)
      = false := by
  refine ⟨by decide, by decide⟩

/-- Claim C7 (amended): an import of a module outside the allow list still
succeeds whenever the module is installed, because the exec environment
exposes the full builtins module including the import machinery;
execute_python_code returns the distinguished ImportError string only when
the module is not installed at all. -/
theorem C7_amended_import_behaviour (installed : String → Bool) (m : String) :
    (installed m = true →
      executePythonCode installed [PyStmt.importMod m]
        = "The following Python code was executed successfully:\n"
            ++ renderProg [PyStmt.importMod m] ++ "\nOutput:\n" ++ "")
    ∧ (installed m = false →
      executePythonCode installed [PyStmt.importMod m]
        = "ImportError occurred: " ++ ("No module named '" ++ m ++ "'")) := by
  constructor
  · intro h
    simp [executePythonCode, runProg, importAvailable, h]
  · intro h
    simp [executePythonCode, runProg, importAvailable, h]

/-- Witness for the amended C7: a world where exactly the os module is
installed; importing os succeeds with the success string, importing numpy
yields the ImportError string. -/
theorem C7_amended_import_behaviour_witness :
    ((fun m => m == "os") "os" = true
      ∧ executePythonCode (fun m => m == "os") [PyStmt.importMod "os"]
          = "The following Python code was executed successfully:\n"
              ++ renderProg [PyStmt.importMod "os"] ++ "\nOutput:\n" ++ "")
    ∧ ((fun m => m == "os") "numpy" = false
      ∧ executePythonCode (fun m => m == "os") [PyStmt.importMod "numpy"]
          = "ImportError occurred: " ++ ("No module named '" ++ "numpy" ++ "'")) :=
  ⟨⟨rfl, (C7_amended_import_behaviour (fun m => m == "os") "os").1 rfl⟩,
    ⟨rfl, (C7_amended_import_behaviour (fun m => m == "os") "numpy").2 rfl⟩⟩

/-- Claim C8: when the response of every step carries a python snippet
that is nonempty after stripping (the truthiness guard of the source) and
every execution attempt fails, the driver makes exactly three attempts per
step, records an error message and a retry announcement for each failure,
appends the terminal failure message after the third failure, and proceeds
to the next step, so the appended transcript is exactly one failBlock per
step and the run is never aborted. -/
theorem C8_exec_retry_exhaustion (steps : List String) (responses : Nat → String)
    (outs : Nat → Nat → String)
    (hpy : ∀ k, (extract_python_code (responses k)).getD "" ≠ "")
    (herr : ∀ k r, isErrorOutput (outs k r) = true) :
    runStepsAppended responses outs steps = expectedAllFail responses outs 0 steps := by
  have main : ∀ (st : List String) (k : Nat),
      runStepsFrom responses outs k st = expectedAllFail responses outs k st := by
    intro st
    induction st with
    | nil => intro k; rfl
    | cons s rest ih =>
      intro k
      rw [runStepsFrom, expectedAllFail, ih (k + 1)]
      congr 1
      have hx := hpy k
      cases hcode : extract_python_code (responses k) with
      | none => rw [hcode] at hx; simp at hx
      | some c =>
        rw [hcode] at hx
        simp only [Option.getD_some] at hx
        simp only [perStep, hcode]
        rw [if_neg hx]
        rw [execLoopF_allFail (outs k) (k + 1) (herr k)]
        simp [failBlock]
  exact main steps 0

/-- Witness for C8 with two steps, a constant response carrying a snippet
and a constant failing execution result. -/
theorem C8_exec_retry_exhaustion_witness :
    (∀ k : Nat,
      (extract_python_code ((fun _ : Nat => "see <python>x = 1</python>") k)).getD "" ≠ "")
    ∧ (∀ k r : Nat, isErrorOutput ((fun _ _ : Nat => "Error: boom") k r) = true)
    ∧ runStepsAppended (fun _ : Nat => "see <python>x = 1</python>")
        (fun _ _ : Nat => "Error: boom") ["s1", "s2"]
        = expectedAllFail (fun _ : Nat => "see <python>x = 1</python>")
            (fun _ _ : Nat => "Error: boom") 0 ["s1", "s2"] :=
  ⟨fun _ => (by decide : (extract_python_code "see <python>x = 1</python>").getD "" ≠ ""),
    fun _ _ => (by decide : isErrorOutput "Error: boom" = true),
    C8_exec_retry_exhaustion ["s1", "s2"] (fun _ : Nat => "see <python>x = 1</python>")
      (fun _ _ : Nat => "Error: boom")
      (fun _ => (by decide : (extract_python_code "see <python>x = 1</python>").getD "" ≠ ""))
      (fun _ _ => (by decide : isErrorOutput "Error: boom" = true))⟩

/-- Claim C10: the retry loop classifies an attempt as failed exactly when
the formatted result contains the substring error case insensitively (the
success flag is the negation of the conjunction of the three attempt
classifications), and a snippet that executes successfully while printing
the word error is classified as failed: the driver records the error
messages and retries three times even though execute_python_code returned
the success string. -/
theorem C10_error_substring_classification :
    (∀ (out : Nat → String) (i : Nat),
      (execLoopF out i 3 3 0).2
        = !(isErrorOutput (out 0) && isErrorOutput (out 1) && isErrorOutput (out 2)))
    ∧ executePythonCode (fun _ => false) [PyStmt.printStr "error count: 0"]
        = "The following Python code was executed successfully:\nprint(\"error count: 0\")\nOutput:\nerror count: 0\n"
    ∧ isErrorOutput
        (executePythonCode (fun _ => false) [PyStmt.printStr "error count: 0"]) = true
    ∧ execLoopF
        (fun _ => executePythonCode (fun _ => false) [PyStmt.printStr "error count: 0"])
        1 3 3 0
        = ([errMsgStr 1 (executePythonCode (fun _ => false) [PyStmt.printStr "error count: 0"]),
            retryMsgStr 1 0 3,
            errMsgStr 1 (executePythonCode (fun _ => false) [PyStmt.printStr "error count: 0"]),
            retryMsgStr 1 1 3,
            errMsgStr 1 (executePythonCode (fun _ => false) [PyStmt.printStr "error count: 0"]),
            retryMsgStr 1 2 3], false) := by
  refine ⟨?_, by decide, by decide, ?_⟩
  · intro out i
    cases h0 : isErrorOutput (out 0) <;> cases h1 : isErrorOutput (out 1) <;>
      cases h2 : isErrorOutput (out 2) <;> simp [execLoopF, h0, h1, h2]
  · exact execLoopF_allFail
      (fun _ => executePythonCode (fun _ => false) [PyStmt.printStr "error count: 0"])
      1 (fun _ => (by decide : isErrorOutput
          (executePythonCode (fun _ => false) [PyStmt.printStr "error count: 0"]) = true))

end LRM
